import Mathlib

/-!
Verification of the `explosive.fuse` namespace engine (`DefaultMapper` in
`src/explosive/fuse/mapper.py`) against its natural-language specification.

The Python mapping is a nested dict whose values are either a dict (a
directory) or a tuple `(archive_path, filename, file_size)` (a file).  We
embed dicts as insertion-ordered association lists with unique keys, and
mutation as functional update.  Failure (Python exceptions that the code
raises or catches) is made explicit: `mkdir` returns the updated mapping
together with an optional `ValueError` message, `load_archive` takes the
outcome of opening the zip file as an explicit argument, and the modelled
`_unload_infolist` returns `Except`.

Parts of the repository referenced by its tests but absent from the source
tree (the `pathmaker` module, the archive registry `archives`, the
contributed-name record `archive_ifilenames`, the occupancy ledger
`reverse_mapping`, and `_unload_infolist`) are modelled from the
specification; each such definition is marked `Modelled from the spec`.
-/

namespace ExplosiveFuse

/-- A node of the namespace tree: either a file leaf
`(archive_path, filename, file_size)` or a directory holding an
insertion-ordered mapping from names to child nodes. -/
inductive Node where
  | file (archive_path : String) (filename : String) (file_size : Nat)
  | dir (entries : List (String × Node))

/-- A directory mapping, as stored in `DefaultMapper.mapping`. -/
abbrev Dict := List (String × Node)

/-- Python `key in d` / `d[key]`: look up a key in a dict. -/
def lookupD : Dict → String → Option Node
  | [], _ => none
  | (k, v) :: rest, key => if k = key then some v else lookupD rest key

/-- Python `d[key] = v`: replace the binding if the key is present,
otherwise append it (dicts preserve insertion order). -/
def setD : Dict → String → Node → Dict
  | [], key, v => [(key, v)]
  | (k, w) :: rest, key, v =>
      if k = key then (key, v) :: rest else (k, w) :: setD rest key v

/-- Python `del d[key]`: remove the binding of a key. -/
def eraseD : Dict → String → Dict
  | [], _ => []
  | (k, v) :: rest, key => if k = key then rest else (k, v) :: eraseD rest key

/-- Python `'/'.join(l)`. -/
def joinSlash (l : List String) : String := String.intercalate "/" l

/-- Splitting a character list on `/`, accumulating the current segment
in reverse. -/
def splitSlashGo : List Char → List Char → List (List Char)
  | [], acc => [acc.reverse]
  | c :: rest, acc =>
      if c = '/' then acc.reverse :: splitSlashGo rest []
      else splitSlashGo rest (c :: acc)

/-- Python `s.split('/')`: always at least one segment; adjacent or
trailing separators yield empty segments. -/
def splitSlash (s : String) : List String :=
  (splitSlashGo s.data []).map String.mk

/-- Python `os.path.basename`: the component after the last `/`. -/
def basename (p : String) : String := (splitSlash p).getLastD ""

/-- Resolution of a fragment list against a node, written from the spec's
words (section 4.4): follow each fragment through nested Directory
mappings; absent if any fragment is missing or an intermediate node is not
a Directory; the empty fragment list returns the node itself. -/
def resolve_spec : Node → List String → Option Node
  | n, [] => some n
  | Node.file _ _ _, _ :: _ => none
  | Node.dir d, frag :: rest =>
      match lookupD d frag with
      | none => none
      | some child => resolve_spec child rest

/-- Body of `DefaultMapper.mkdir` (mapper.py lines 45-63).  Walks the
fragment list from the root, descending into existing directory dicts and
creating missing ones; hitting a file entry raises `ValueError`.  The
result is the mapping as the in-place mutation leaves it, paired with the
`ValueError` message when one was raised.  `path_fragments` and `c` carry
the full list and the current index, used only for the error message. -/
def mkdirGo (path_fragments : List String) (c : Nat) :
    List String → Dict → Dict × Option String
  | [], current => (current, none)
  | frag :: rest, current =>
      match lookupD current frag with
      | some (Node.dir sub) =>
          let r := mkdirGo path_fragments (c + 1) rest sub
          (setD current frag (Node.dir r.1), r.2)
      | some (Node.file _ _ _) =>
          (current, some ("cannot create directory `" ++ frag ++ "` at `" ++
            joinSlash (path_fragments.take c) ++ "/`: file entry exists."))
      | none =>
          let r := mkdirGo path_fragments (c + 1) rest []
          (setD current frag (Node.dir r.1), r.2)

/-- `DefaultMapper.mkdir(path_fragments)` acting on a mapping `d`: the
updated mapping and the `ValueError` message, if any. -/
def mkdir (d : Dict) (path_fragments : List String) : Dict × Option String :=
  mkdirGo path_fragments 0 path_fragments d

/-- The directory dict reached by descending through `frags`; `none` if a
fragment is missing or is a file.  After a successful `mkdir d frags` this
recovers the dict that the Python method returns by reference. -/
def dirAt : Dict → List String → Option Dict
  | d, [] => some d
  | d, frag :: rest =>
      match lookupD d frag with
      | some (Node.dir sub) => dirAt sub rest
      | _ => none

/-- Functional counterpart of Python's `target[filename] = v` where
`target` is the dict at path `frags`: rebuild the mapping with the binding
written into that dict.  Unchanged if the path does not lead to a dict
(unreachable after a successful `mkdir`). -/
def setAtD : Dict → List String → String → Node → Dict
  | d, [], key, v => setD d key v
  | d, frag :: rest, key, v =>
      match lookupD d frag with
      | some (Node.dir sub) => setD d frag (Node.dir (setAtD sub rest key v))
      | _ => d

/-- Deletion of the leaf `key` from the dict at path `frags`, used by the
modelled unload.  Unchanged if the path does not lead to a dict. -/
def delAtD : Dict → List String → String → Dict
  | d, [], key => eraseD d key
  | d, frag :: rest, key =>
      match lookupD d frag with
      | some (Node.dir sub) => setD d frag (Node.dir (delAtD sub rest key))
      | _ => d

/-- The fields of a `zipfile.ZipInfo` that the mapper reads. -/
structure ZipInfo where
  filename : String
  file_size : Nat

/-- Modelled from the spec: the repository's `pathmaker` module is not
under src/ (only `from . import pathmaker` remains).  Spec section 4.1,
default strategy: split on `/`; if the string ends with `/`, the trailing
empty segment is discarded and the leaf is absent (fragments = all
remaining segments); otherwise the last segment is the leaf and the rest
are directory fragments. -/
def default_pathmaker (ifilename : String) : List String × Option String :=
  let segs := splitSlash ifilename
  if ifilename.data.getLast? = some '/' then (segs.dropLast, none)
  else (segs.dropLast, some (segs.getLastD ""))

/-- Per-name record dicts (`archive_ifilenames`, `reverse_mapping`):
insertion-ordered association lists from a string key to a list of
strings. -/
abbrev RecDict := List (String × List String)

/-- Key lookup in a record dict. -/
def lookupRec : RecDict → String → Option (List String)
  | [], _ => none
  | (k, v) :: rest, key => if k = key then some v else lookupRec rest key

/-- Assignment in a record dict (replace or append, dict semantics). -/
def setRec : RecDict → String → List String → RecDict
  | [], key, v => [(key, v)]
  | (k, w) :: rest, key, v =>
      if k = key then (key, v) :: rest else (k, w) :: setRec rest key v

/-- Append one value to the sequence stored at `key`, creating the entry
when missing. -/
def appendRec (l : RecDict) (key : String) (v : String) : RecDict :=
  match lookupRec l key with
  | none => setRec l key [v]
  | some vs => setRec l key (vs ++ [v])

/-- Python `del d[key]` on a record dict. -/
def eraseRec (l : RecDict) (key : String) : RecDict :=
  l.filter (fun kv => kv.1 != key)

/-- Removal of the first occurrence of a value from a sequence
(Python `list.remove`). -/
def removeFirst : List String → String → List String
  | [], _ => []
  | x :: rest, y => if x = y then rest else x :: removeFirst rest y

/-- State of a `DefaultMapper`.  `mapping`, `overwrite`, `include_arcname`
and `pathmaker` come from the source `__init__`.  The registry and ledger
fields (`archives`, `archive_ifilenames`, `reverse_mapping`) are modelled
from the spec (sections 2 and 3): their maintaining code is not under
src/, though the repository's tests exercise them. -/
structure Mapper where
  mapping : Dict
  overwrite : Bool
  include_arcname : Bool
  pathmaker : String → List String × Option String
  archives : List String
  archive_ifilenames : RecDict
  reverse_mapping : RecDict

/-- The effective entry name (spec step 1): prefix with the archive's base
name plus `/` when `include_arcname` is set, else the internal name
unchanged (mapper.py lines 82-88). -/
def effectiveName (inc : Bool) (archive_path : String) (info : ZipInfo) : String :=
  if inc then basename archive_path ++ "/" ++ info.filename else info.filename

/-- One iteration of the `_load_infolist` loop (mapper.py lines 84-108)
acting on the mapping: compute the effective name, run the pathmaker,
`mkdir` the fragments (a `ValueError` is caught: log and continue), stop
for directory entries, skip an existing leaf unless `overwrite`, else
write the file tuple into the target dict. -/
def loadEntry (ov : Bool) (archive_path : String)
    (pm : String → List String × Option String) (inc : Bool)
    (info : ZipInfo) (d : Dict) : Dict :=
  let ifilename := effectiveName inc archive_path info
  let fr := pm ifilename
  match mkdir d fr.1 with
  | (d', some _) => d'
  | (d', none) =>
      match fr.2 with
      | none => d'
      | some filename =>
          match dirAt d' fr.1 with
          | none => d'
          | some target =>
              if (lookupD target filename).isSome && !ov then d'
              else setAtD d' fr.1 filename
                (Node.file archive_path info.filename info.file_size)

/-- The `_load_infolist` loop over the whole infolist. -/
def loadEntriesGo (ov : Bool) (archive_path : String)
    (pm : String → List String × Option String) (inc : Bool) :
    List ZipInfo → Dict → Dict
  | [], d => d
  | info :: rest, d =>
      loadEntriesGo ov archive_path pm inc rest
        (loadEntry ov archive_path pm inc info d)

/-- `DefaultMapper._load_infolist` as present under src/ (mapper.py lines
81-108): folds the loop body over the infolist, mutating only
`self.mapping`. -/
def load_infolist (m : Mapper) (archive_path : String)
    (infolist : List ZipInfo) : Mapper :=
  { m with
    mapping := loadEntriesGo m.overwrite archive_path m.pathmaker
      m.include_arcname infolist m.mapping }

/-- Python `path and path.split('/') or []` (mapper.py line 70). -/
def pathFrags (path : String) : List String :=
  if path = "" then [] else splitSlash path

/-- One iteration of the `traverse` loop (mapper.py lines 73-77): return
`None` if the current node is not a dict or lacks the fragment, else
descend.  A `none` accumulator models the early `return None`. -/
def traverseStep (current : Option Node) (frag : String) : Option Node :=
  match current with
  | some (Node.dir d) => lookupD d frag
  | _ => none

/-- `DefaultMapper.traverse(path)` (mapper.py lines 65-79). -/
def traverse (m : Mapper) (path : String) : Option Node :=
  (pathFrags path).foldl traverseStep (some (Node.dir m.mapping))

/-- `DefaultMapper.readdir(path)` (mapper.py lines 145-153): the keys of
the dict `traverse` finds, `[]` when it finds a non-dict or nothing. -/
def readdir (m : Mapper) (path : String) : List String :=
  match traverse m path with
  | some (Node.dir info) => info.map Prod.fst
  | _ => []

/-- Outcome of `ZipFile(archive_path)` at the archive-reader boundary:
either the infolist, or one of the exceptions `load_archive` catches
(mapper.py lines 116-128). -/
inductive ZipOpenResult where
  | opened (infolist : List ZipInfo)
  | badZipFile
  | fileNotFoundError
  | otherException

/-- `DefaultMapper.load_archive` (mapper.py lines 110-129): on a
successful open, load the infolist and return `True`; each caught
exception is logged and yields `False` with no state change. -/
def load_archive (m : Mapper) (archive_path : String) (zf : ZipOpenResult) :
    Bool × Mapper :=
  match zf with
  | ZipOpenResult.opened infolist => (true, load_infolist m archive_path infolist)
  | ZipOpenResult.badZipFile => (false, m)
  | ZipOpenResult.fileNotFoundError => (false, m)
  | ZipOpenResult.otherException => (false, m)

/-- Modelled from the spec: the recording step of `load` (spec section
4.2 step 3) is not under src/ (the tests reference `archive_ifilenames`
and `reverse_mapping`, whose maintaining code is missing).  Per entry:
append the effective name to this archive's contributed-names list and
append the archive identifier to the occupancy ledger for that effective
name — unconditionally — then perform the tree steps 4-7 (`loadEntry`). -/
def loadRecStep (m : Mapper) (archive_id : String) (info : ZipInfo) : Mapper :=
  let ifilename := effectiveName m.include_arcname archive_id info
  { m with
    archive_ifilenames := appendRec m.archive_ifilenames archive_id ifilename
    reverse_mapping := appendRec m.reverse_mapping ifilename archive_id
    mapping := loadEntry m.overwrite archive_id m.pathmaker
      m.include_arcname info m.mapping }

/-- Modelled from the spec: the per-entry loop of the recording `load`,
in reader order. -/
def loadRecGo (archive_id : String) : List ZipInfo → Mapper → Mapper
  | [], m => m
  | info :: rest, m => loadRecGo archive_id rest (loadRecStep m archive_id info)

/-- Modelled from the spec: `load(archive_id, entries)` with registry and
ledger maintenance (spec section 4.2), absent from src/.  The archive is
entered into the registry (merging when already present, spec section 4.2
last paragraph) and every entry is processed in reader order. -/
def load_infolist_rec (m : Mapper) (archive_id : String)
    (infolist : List ZipInfo) : Mapper :=
  loadRecGo archive_id infolist
    { m with
      archives := if m.archives.contains archive_id then m.archives
        else m.archives ++ [archive_id] }

/-- Modelled from the spec: step for one contributed name of
`unload(archive_id)` (spec section 4.3): (a) remove the identifier from
the name's occupancy-ledger sequence, deleting the entry once empty;
(b) if the Tree leaf at the resolved path is a File node whose archive
identifier matches, delete that leaf from its parent directory (no
repopulation from other contributors; no change when the occupant is a
different archive). -/
def unloadNameStep (archive_id : String) (m : Mapper) (name : String) : Mapper :=
  let rm :=
    match lookupRec m.reverse_mapping name with
    | none => m.reverse_mapping
    | some seq =>
        let seq' := removeFirst seq archive_id
        if seq' = [] then eraseRec m.reverse_mapping name
        else setRec m.reverse_mapping name seq'
  let fr := m.pathmaker name
  let mp :=
    match fr.2 with
    | none => m.mapping
    | some fn =>
        match dirAt m.mapping fr.1 with
        | none => m.mapping
        | some target =>
            match lookupD target fn with
            | some (Node.file a _ _) =>
                if a = archive_id then delAtD m.mapping fr.1 fn else m.mapping
            | _ => m.mapping
  { m with reverse_mapping := rm, mapping := mp }

/-- Modelled from the spec: the loop of `unload` over the archive's
contributed names, in original order. -/
def unloadGo (archive_id : String) : List String → Mapper → Mapper
  | [], m => m
  | name :: rest, m => unloadGo archive_id rest (unloadNameStep archive_id m name)

/-- Modelled from the spec: `_unload_infolist(archive_id)` (spec section
4.3), absent from src/ though exercised by the tests.  Fails with a "not
loaded" condition when the identifier is absent from the registry (the
tests observe a `KeyError`); otherwise processes every contributed name
and finally removes the archive's registry entry. -/
def unload_infolist (m : Mapper) (archive_id : String) : Except String Mapper :=
  match lookupRec m.archive_ifilenames archive_id with
  | none => Except.error ("not loaded: " ++ archive_id)
  | some names =>
      let m' := unloadGo archive_id names m
      Except.ok
        { m' with
          archives := m'.archives.filter (fun a => a != archive_id)
          archive_ifilenames := eraseRec m'.archive_ifilenames archive_id }

/-- The contributed-names list currently recorded for an archive. -/
def contributedNames (m : Mapper) (archive_id : String) : List String :=
  (lookupRec m.archive_ifilenames archive_id).getD []

/-- The occupancy-ledger sequence currently recorded for an effective
name. -/
def ledgerSeq (m : Mapper) (name : String) : List String :=
  (lookupRec m.reverse_mapping name).getD []

/-- `traverse` as explicit state passing: the method reads `self` and
assigns no attribute, so it hands back the state it was given. -/
def traverseS (m : Mapper) (path : String) : Option Node × Mapper :=
  (traverse m path, m)

/-- `readdir` as explicit state passing: the method reads `self` and
assigns no attribute, so it hands back the state it was given. -/
def readdirS (m : Mapper) (path : String) : List String × Mapper :=
  (readdir m path, m)

/-- Some fragment along the path already exists as a file node: the
condition under which `mkdir` raises `ValueError`. -/
def hasFileConflict : Dict → List String → Bool
  | _, [] => false
  | d, frag :: rest =>
      match lookupD d frag with
      | some (Node.file _ _ _) => true
      | some (Node.dir sub) => hasFileConflict sub rest
      | none => false

/-- A path is blocked when some (possibly improper) prefix of it is bound
to a file leaf. -/
def blockedBy (d : Dict) (p : List String) : Prop :=
  ∃ q r, p = q ++ r ∧ ∃ a nm s,
    resolve_spec (Node.dir d) q = some (Node.file a nm s)

/-- A sequence of `load_archive`-style calls, each loading one infolist
into the mapper in order. -/
def loadSeq : List (String × List ZipInfo) → Mapper → Mapper
  | [], m => m
  | l :: rest, m => loadSeq rest (load_infolist m l.1 l.2)

/-- The pre-seeded mapper of the spec's concrete scenario D (and of the
test `test_mapping_simple_nested_blocked`): a file leaf named `demo`
occupies the root. -/
def mapperDemoSeed : Mapper :=
  { mapping := [("demo", Node.file "somezip.zip" "notadir" 0)]
    overwrite := false
    include_arcname := false
    pathmaker := default_pathmaker
    archives := []
    archive_ifilenames := []
    reverse_mapping := [] }

/-- The same mapper with `overwrite` enabled (the rest of the state is
identical). -/
def mapperDemoSeedOv : Mapper :=
  { mapperDemoSeed with overwrite := true }

/-- The infolist of the test archive `demo2.zip`: a `demo/` directory
marker followed by six files under `demo/`, in reader order. -/
def demo2Infos : List ZipInfo :=
  [⟨"demo/", 0⟩, ⟨"demo/file4", 33⟩, ⟨"demo/file3", 33⟩, ⟨"demo/file5", 33⟩,
   ⟨"demo/file6", 33⟩, ⟨"demo/file1", 33⟩, ⟨"demo/file2", 33⟩]

/-- A mapper with `overwrite=true` whose root binds `a` to a directory
that contains a file. -/
def cexMapper : Mapper :=
  { mapping := [("a", Node.dir [("b", Node.file "old.zip" "a/b" 1)])]
    overwrite := true
    include_arcname := false
    pathmaker := default_pathmaker
    archives := []
    archive_ifilenames := []
    reverse_mapping := [] }

/-- A mapper with nothing loaded. -/
def emptyMapper : Mapper :=
  { mapping := []
    overwrite := false
    include_arcname := false
    pathmaker := default_pathmaker
    archives := []
    archive_ifilenames := []
    reverse_mapping := [] }

/-! ### Dictionary lemmas -/

theorem lookupD_setD_self (d : Dict) (k : String) (v : Node) :
    lookupD (setD d k v) k = some v := by
  induction d with
  | nil => simp [setD, lookupD]
  | cons kv rest ih =>
      obtain ⟨k', w⟩ := kv
      by_cases h : k' = k
      · simp [setD, h, lookupD]
      · simp [setD, h, lookupD, ih]

theorem lookupD_setD_ne (d : Dict) (k k' : String) (v : Node) (h : k' ≠ k) :
    lookupD (setD d k v) k' = lookupD d k' := by
  induction d with
  | nil => simp [setD, lookupD, Ne.symm h]
  | cons kv rest ih =>
      obtain ⟨k₀, w⟩ := kv
      by_cases h0 : k₀ = k
      · subst h0
        simp [setD, lookupD, Ne.symm h]
      · simp only [setD, if_neg h0, lookupD]
        by_cases h1 : k₀ = k'
        · simp [h1]
        · simp [h1, ih]

theorem setD_self (d : Dict) (k : String) (v : Node)
    (h : lookupD d k = some v) : setD d k v = d := by
  induction d with
  | nil => simp [lookupD] at h
  | cons kv rest ih =>
      obtain ⟨k₀, w⟩ := kv
      by_cases h0 : k₀ = k
      · subst h0
        simp [lookupD] at h
        simp [setD, h]
      · simp [lookupD, h0] at h
        simp [setD, h0, ih h]

/-! ### `mkdir` lemmas -/

theorem mkdirGo_nil_snd (full : List String) (fs : List String) (c : Nat) :
    (mkdirGo full c fs ([] : Dict)).2 = none := by
  induction fs generalizing c with
  | nil => simp [mkdirGo]
  | cons frag rest ih => simp [mkdirGo, lookupD, ih]

theorem mkdirGo_err_fst (full : List String) (fs : List String) (c : Nat)
    (d : Dict) (e : String) (h : (mkdirGo full c fs d).2 = some e) :
    (mkdirGo full c fs d).1 = d := by
  induction fs generalizing c d with
  | nil => simp [mkdirGo] at h
  | cons frag rest ih =>
      cases hl : lookupD d frag with
      | none =>
          simp only [mkdirGo, hl] at h ⊢
          rw [mkdirGo_nil_snd] at h
          exact absurd h (by simp)
      | some n =>
          cases n with
          | file a nm s => simp [mkdirGo, hl]
          | dir sub =>
              simp only [mkdirGo, hl] at h ⊢
              rw [ih c.succ sub h, setD_self d frag (Node.dir sub) hl]

theorem mkdir_err_fst (d : Dict) (fs : List String) (e : String)
    (h : (mkdir d fs).2 = some e) : (mkdir d fs).1 = d :=
  mkdirGo_err_fst fs fs 0 d e h

theorem conflict_mkdirGo (full : List String) (fs : List String) (c : Nat)
    (d : Dict) (h : hasFileConflict d fs = true) :
    (mkdirGo full c fs d).1 = d ∧ ∃ e, (mkdirGo full c fs d).2 = some e := by
  induction fs generalizing c d with
  | nil => simp [hasFileConflict] at h
  | cons frag rest ih =>
      cases hl : lookupD d frag with
      | none => simp [hasFileConflict, hl] at h
      | some n =>
          cases n with
          | file a nm s => simp [mkdirGo, hl]
          | dir sub =>
              simp only [hasFileConflict, hl] at h
              obtain ⟨h1, e, h2⟩ := ih c.succ sub h
              refine ⟨?_, e, by simp [mkdirGo, hl, h2]⟩
              simp only [mkdirGo, hl]
              rw [h1, setD_self d frag (Node.dir sub) hl]

/-! ### Resolution lemmas -/

theorem resolve_spec_append (p q : List String) (n : Node) :
    resolve_spec n (p ++ q) =
      (resolve_spec n p).bind (fun c => resolve_spec c q) := by
  induction p generalizing n with
  | nil => simp [resolve_spec]
  | cons frag rest ih =>
      cases n with
      | file a nm s => simp [resolve_spec]
      | dir d =>
          cases hl : lookupD d frag with
          | none => simp [resolve_spec, hl]
          | some child => simp [resolve_spec, hl, ih]

/-- Creating directories never disturbs an existing file binding: the
`mkdir` walk only rewraps directory dicts and adds fresh empty dicts. -/
theorem resolve_mkdirGo_file (full : List String) (fs : List String) (c : Nat)
    (d : Dict) (p : List String) (a nm : String) (s : Nat)
    (h : resolve_spec (Node.dir d) p = some (Node.file a nm s)) :
    resolve_spec (Node.dir (mkdirGo full c fs d).1) p
      = some (Node.file a nm s) := by
  induction fs generalizing c d p with
  | nil => simpa [mkdirGo] using h
  | cons frag rest ih =>
      cases hl : lookupD d frag with
      | none =>
          simp only [mkdirGo, hl]
          cases p with
          | nil => simp [resolve_spec] at h
          | cons f r =>
              by_cases hf : f = frag
              · subst hf
                simp [resolve_spec, hl] at h
              · simp only [resolve_spec] at h ⊢
                rw [lookupD_setD_ne _ _ _ _ (fun hh => hf hh)]
                exact h
      | some n =>
          cases n with
          | file a' nm' s' => simpa [mkdirGo, hl] using h
          | dir sub =>
              simp only [mkdirGo, hl]
              cases p with
              | nil => simp [resolve_spec] at h
              | cons f r =>
                  by_cases hf : f = frag
                  · subst hf
                    simp only [resolve_spec, hl] at h
                    simp only [resolve_spec, lookupD_setD_self]
                    exact ih c.succ sub r h
                  · simp only [resolve_spec] at h ⊢
                    rw [lookupD_setD_ne _ _ _ _ (fun hh => hf hh)]
                    exact h

/-- Creating directories keeps every existing directory a directory. -/
theorem resolve_mkdirGo_dir (full : List String) (fs : List String) (c : Nat)
    (d : Dict) (p : List String) (e : Dict)
    (h : resolve_spec (Node.dir d) p = some (Node.dir e)) :
    ∃ e', resolve_spec (Node.dir (mkdirGo full c fs d).1) p
      = some (Node.dir e') := by
  induction fs generalizing c d p e with
  | nil => exact ⟨e, by simpa [mkdirGo] using h⟩
  | cons frag rest ih =>
      cases hl : lookupD d frag with
      | none =>
          simp only [mkdirGo, hl]
          cases p with
          | nil => exact ⟨_, rfl⟩
          | cons f r =>
              by_cases hf : f = frag
              · subst hf
                simp [resolve_spec, hl] at h
              · simp only [resolve_spec] at h ⊢
                rw [lookupD_setD_ne _ _ _ _ (fun hh => hf hh)]
                exact ⟨e, h⟩
      | some n =>
          cases n with
          | file a' nm' s' => exact ⟨e, by simpa [mkdirGo, hl] using h⟩
          | dir sub =>
              simp only [mkdirGo, hl]
              cases p with
              | nil => exact ⟨_, rfl⟩
              | cons f r =>
                  by_cases hf : f = frag
                  · subst hf
                    simp only [resolve_spec, hl] at h
                    obtain ⟨e', he⟩ := ih c.succ sub r e h
                    exact ⟨e', by simp only [resolve_spec, lookupD_setD_self]; exact he⟩
                  · simp only [resolve_spec] at h ⊢
                    rw [lookupD_setD_ne _ _ _ _ (fun hh => hf hh)]
                    exact ⟨e, h⟩

/-- Writing a leaf under a name that is free in its target directory
never disturbs an existing file binding. -/
theorem resolve_setAtD_file_fresh (fs : List String) (d target : Dict)
    (fn : String) (v : Node) (p : List String) (a nm : String) (s : Nat)
    (ht : dirAt d fs = some target) (hfree : lookupD target fn = none)
    (h : resolve_spec (Node.dir d) p = some (Node.file a nm s)) :
    resolve_spec (Node.dir (setAtD d fs fn v)) p = some (Node.file a nm s) := by
  induction fs generalizing d p with
  | nil =>
      simp only [dirAt, Option.some_inj] at ht
      subst ht
      cases p with
      | nil => simp [resolve_spec] at h
      | cons f r =>
          simp only [setAtD, resolve_spec] at h ⊢
          by_cases hf : f = fn
          · subst hf
            simp [hfree] at h
          · rw [lookupD_setD_ne _ _ _ _ (fun hh => hf hh)]
            exact h
  | cons frag rest ih =>
      cases hl : lookupD d frag with
      | none => simp [dirAt, hl] at ht
      | some n =>
          cases n with
          | file a' nm' s' => simp [dirAt, hl] at ht
          | dir sub =>
              simp only [dirAt, hl] at ht
              simp only [setAtD, hl]
              cases p with
              | nil => simp [resolve_spec] at h
              | cons f r =>
                  by_cases hf : f = frag
                  · subst hf
                    simp only [resolve_spec, hl] at h
                    simp only [resolve_spec, lookupD_setD_self]
                    exact ih sub r ht h
                  · simp only [resolve_spec] at h ⊢
                    rw [lookupD_setD_ne _ _ _ _ (fun hh => hf hh)]
                    exact h

/-- Writing a leaf under a name that is free in its target directory
keeps every existing directory a directory. -/
theorem resolve_setAtD_dir_fresh (fs : List String) (d target : Dict)
    (fn : String) (v : Node) (p : List String) (e : Dict)
    (ht : dirAt d fs = some target) (hfree : lookupD target fn = none)
    (h : resolve_spec (Node.dir d) p = some (Node.dir e)) :
    ∃ e', resolve_spec (Node.dir (setAtD d fs fn v)) p = some (Node.dir e') := by
  induction fs generalizing d p e with
  | nil =>
      simp only [dirAt, Option.some_inj] at ht
      subst ht
      cases p with
      | nil => exact ⟨_, rfl⟩
      | cons f r =>
          simp only [setAtD, resolve_spec] at h ⊢
          by_cases hf : f = fn
          · subst hf
            simp [hfree] at h
          · rw [lookupD_setD_ne _ _ _ _ (fun hh => hf hh)]
            exact ⟨e, h⟩
  | cons frag rest ih =>
      cases hl : lookupD d frag with
      | none => simp [dirAt, hl] at ht
      | some n =>
          cases n with
          | file a' nm' s' => simp [dirAt, hl] at ht
          | dir sub =>
              simp only [dirAt, hl] at ht
              simp only [setAtD, hl]
              cases p with
              | nil => exact ⟨_, rfl⟩
              | cons f r =>
                  by_cases hf : f = frag
                  · subst hf
                    simp only [resolve_spec, hl] at h
                    obtain ⟨e', he⟩ := ih sub r e ht h
                    refine ⟨e', ?_⟩
                    simp only [resolve_spec, lookupD_setD_self]
                    exact he
                  · simp only [resolve_spec] at h ⊢
                    rw [lookupD_setD_ne _ _ _ _ (fun hh => hf hh)]
                    exact ⟨e, h⟩

/-- Writing a file leaf anywhere (also over an existing binding, as the
overwrite policy allows) can only keep a file-bound path file-bound or
cut it off below a new file leaf at a proper prefix; it never rebinds a
file-bound path to a directory. -/
theorem resolve_setAtD_file_any (fs : List String) (d : Dict)
    (fn A N : String) (S : Nat) (p : List String) (a nm : String) (s : Nat)
    (h : resolve_spec (Node.dir d) p = some (Node.file a nm s)) :
    (∃ a' n' s', resolve_spec (Node.dir (setAtD d fs fn (Node.file A N S))) p
        = some (Node.file a' n' s')) ∨
    (∃ q r, p = q ++ r ∧ r ≠ [] ∧ ∃ a' n' s',
        resolve_spec (Node.dir (setAtD d fs fn (Node.file A N S))) q
          = some (Node.file a' n' s')) := by
  induction fs generalizing d p with
  | nil =>
      cases p with
      | nil => simp [resolve_spec] at h
      | cons f r =>
          by_cases hf : f = fn
          · subst hf
            cases r with
            | nil =>
                left
                refine ⟨A, N, S, ?_⟩
                simp [setAtD, resolve_spec, lookupD_setD_self]
            | cons x r' =>
                right
                refine ⟨[f], x :: r', rfl, by simp, A, N, S, ?_⟩
                simp [setAtD, resolve_spec, lookupD_setD_self]
          · left
            refine ⟨a, nm, s, ?_⟩
            simp only [setAtD, resolve_spec] at h ⊢
            rw [lookupD_setD_ne _ _ _ _ (fun hh => hf hh)]
            exact h
  | cons frag rest ih =>
      cases hl : lookupD d frag with
      | none => exact Or.inl ⟨a, nm, s, by simpa [setAtD, hl] using h⟩
      | some n =>
          cases n with
          | file a' nm' s' => exact Or.inl ⟨a, nm, s, by simpa [setAtD, hl] using h⟩
          | dir sub =>
              simp only [setAtD, hl]
              cases p with
              | nil => simp [resolve_spec] at h
              | cons f r =>
                  by_cases hf : f = frag
                  · subst hf
                    simp only [resolve_spec, hl] at h
                    rcases ih sub r h with ⟨a', n', s', hres⟩ | ⟨q, rr, hqr, hne, a', n', s', hres⟩
                    · left
                      refine ⟨a', n', s', ?_⟩
                      simp only [resolve_spec, lookupD_setD_self]
                      exact hres
                    · right
                      refine ⟨f :: q, rr, by rw [hqr]; rfl, hne, a', n', s', ?_⟩
                      simp only [resolve_spec, lookupD_setD_self]
                      exact hres
                  · left
                    refine ⟨a, nm, s, ?_⟩
                    simp only [resolve_spec] at h ⊢
                    rw [lookupD_setD_ne _ _ _ _ (fun hh => hf hh)]
                    exact h

theorem resolve_mkdir_file (d : Dict) (fs p : List String) (a nm : String)
    (s : Nat) (h : resolve_spec (Node.dir d) p = some (Node.file a nm s)) :
    resolve_spec (Node.dir (mkdir d fs).1) p = some (Node.file a nm s) :=
  resolve_mkdirGo_file fs fs 0 d p a nm s h

theorem resolve_mkdir_dir (d : Dict) (fs p : List String) (e : Dict)
    (h : resolve_spec (Node.dir d) p = some (Node.dir e)) :
    ∃ e', resolve_spec (Node.dir (mkdir d fs).1) p = some (Node.dir e') :=
  resolve_mkdirGo_dir fs fs 0 d p e h

/-! ### Per-entry preservation lemmas -/

/-- With `overwrite=false`, processing one archive entry leaves every
existing file binding exactly as it was (claims about steps 4 and 6). -/
theorem loadEntry_file_preserved (ap : String)
    (pm : String → List String × Option String) (inc : Bool) (info : ZipInfo)
    (d : Dict) (p : List String) (a nm : String) (s : Nat)
    (h : resolve_spec (Node.dir d) p = some (Node.file a nm s)) :
    resolve_spec (Node.dir (loadEntry false ap pm inc info d)) p
      = some (Node.file a nm s) := by
  rcases hmk : mkdir d (pm (effectiveName inc ap info)).1 with ⟨d', err⟩
  have hd' : resolve_spec (Node.dir d') p = some (Node.file a nm s) := by
    have hp := resolve_mkdir_file d (pm (effectiveName inc ap info)).1 p a nm s h
    rwa [hmk] at hp
  cases err with
  | some e => simpa [loadEntry, hmk] using hd'
  | none =>
      cases hfn : (pm (effectiveName inc ap info)).2 with
      | none => simpa [loadEntry, hmk, hfn] using hd'
      | some fn =>
          cases hda : dirAt d' (pm (effectiveName inc ap info)).1 with
          | none => simpa [loadEntry, hmk, hfn, hda] using hd'
          | some target =>
              cases hlk : lookupD target fn with
              | some v => simpa [loadEntry, hmk, hfn, hda, hlk] using hd'
              | none =>
                  simp only [loadEntry, hmk, hfn, hda, hlk]
                  simpa using resolve_setAtD_file_fresh _ d' target fn _ p a nm s
                    hda hlk hd'

/-- With `overwrite=false`, processing one archive entry keeps every
existing directory a directory. -/
theorem loadEntry_dir_preserved (ap : String)
    (pm : String → List String × Option String) (inc : Bool) (info : ZipInfo)
    (d : Dict) (p : List String) (e : Dict)
    (h : resolve_spec (Node.dir d) p = some (Node.dir e)) :
    ∃ e', resolve_spec (Node.dir (loadEntry false ap pm inc info d)) p
      = some (Node.dir e') := by
  rcases hmk : mkdir d (pm (effectiveName inc ap info)).1 with ⟨d', err⟩
  obtain ⟨e', hd'⟩ : ∃ e', resolve_spec (Node.dir d') p = some (Node.dir e') := by
    obtain ⟨e', hp⟩ := resolve_mkdir_dir d (pm (effectiveName inc ap info)).1 p e h
    rw [hmk] at hp
    exact ⟨e', hp⟩
  cases err with
  | some er => exact ⟨e', by simpa [loadEntry, hmk] using hd'⟩
  | none =>
      cases hfn : (pm (effectiveName inc ap info)).2 with
      | none => exact ⟨e', by simpa [loadEntry, hmk, hfn] using hd'⟩
      | some fn =>
          cases hda : dirAt d' (pm (effectiveName inc ap info)).1 with
          | none => exact ⟨e', by simpa [loadEntry, hmk, hfn, hda] using hd'⟩
          | some target =>
              cases hlk : lookupD target fn with
              | some v => exact ⟨e', by simpa [loadEntry, hmk, hfn, hda, hlk] using hd'⟩
              | none =>
                  obtain ⟨e'', he''⟩ := resolve_setAtD_dir_fresh _ d' target fn
                    (Node.file ap info.filename info.file_size) p e' hda hlk hd'
                  exact ⟨e'', by simpa [loadEntry, hmk, hfn, hda, hlk] using he''⟩

/-- Under any overwrite policy, a file-bound path stays file-bound or is
cut off below a file leaf written at a proper prefix of it; it is never
rebound to a directory. -/
theorem loadEntry_file_any (ov : Bool) (ap : String)
    (pm : String → List String × Option String) (inc : Bool) (info : ZipInfo)
    (d : Dict) (p : List String) (a nm : String) (s : Nat)
    (h : resolve_spec (Node.dir d) p = some (Node.file a nm s)) :
    (∃ a' n' s', resolve_spec (Node.dir (loadEntry ov ap pm inc info d)) p
        = some (Node.file a' n' s')) ∨
    (∃ q r, p = q ++ r ∧ r ≠ [] ∧ ∃ a' n' s',
        resolve_spec (Node.dir (loadEntry ov ap pm inc info d)) q
          = some (Node.file a' n' s')) := by
  rcases hmk : mkdir d (pm (effectiveName inc ap info)).1 with ⟨d', err⟩
  have hd' : resolve_spec (Node.dir d') p = some (Node.file a nm s) := by
    have hp := resolve_mkdir_file d (pm (effectiveName inc ap info)).1 p a nm s h
    rwa [hmk] at hp
  cases err with
  | some e => exact Or.inl ⟨a, nm, s, by simpa [loadEntry, hmk] using hd'⟩
  | none =>
      cases hfn : (pm (effectiveName inc ap info)).2 with
      | none => exact Or.inl ⟨a, nm, s, by simpa [loadEntry, hmk, hfn] using hd'⟩
      | some fn =>
          cases hda : dirAt d' (pm (effectiveName inc ap info)).1 with
          | none => exact Or.inl ⟨a, nm, s, by simpa [loadEntry, hmk, hfn, hda] using hd'⟩
          | some target =>
              cases hc : (lookupD target fn).isSome && !ov with
              | true => exact Or.inl ⟨a, nm, s, by simpa [loadEntry, hmk, hfn, hda, hc] using hd'⟩
              | false =>
                  have hres := resolve_setAtD_file_any
                    (pm (effectiveName inc ap info)).1 d' fn ap info.filename
                    info.file_size p a nm s hd'
                  rcases hres with ⟨a', n', s', hres⟩ | ⟨q, r, hqr, hne, a', n', s', hres⟩
                  · exact Or.inl ⟨a', n', s', by simpa [loadEntry, hmk, hfn, hda, hc] using hres⟩
                  · exact Or.inr ⟨q, r, hqr, hne, a', n', s',
                      by simpa [loadEntry, hmk, hfn, hda, hc] using hres⟩

/-! ### Whole-infolist and whole-sequence preservation -/

theorem loadEntriesGo_file_preserved (ap : String)
    (pm : String → List String × Option String) (inc : Bool)
    (il : List ZipInfo) (d : Dict) (p : List String) (a nm : String) (s : Nat)
    (h : resolve_spec (Node.dir d) p = some (Node.file a nm s)) :
    resolve_spec (Node.dir (loadEntriesGo false ap pm inc il d)) p
      = some (Node.file a nm s) := by
  induction il generalizing d with
  | nil => simpa [loadEntriesGo] using h
  | cons info rest ih =>
      simp only [loadEntriesGo]
      exact ih _ (loadEntry_file_preserved ap pm inc info d p a nm s h)

theorem loadEntriesGo_dir_preserved (ap : String)
    (pm : String → List String × Option String) (inc : Bool)
    (il : List ZipInfo) (d : Dict) (p : List String) (e : Dict)
    (h : resolve_spec (Node.dir d) p = some (Node.dir e)) :
    ∃ e', resolve_spec (Node.dir (loadEntriesGo false ap pm inc il d)) p
      = some (Node.dir e') := by
  induction il generalizing d e with
  | nil => exact ⟨e, by simpa [loadEntriesGo] using h⟩
  | cons info rest ih =>
      simp only [loadEntriesGo]
      obtain ⟨e', he'⟩ := loadEntry_dir_preserved ap pm inc info d p e h
      exact ih _ e' he'

theorem loadEntry_blocked (ov : Bool) (ap : String)
    (pm : String → List String × Option String) (inc : Bool) (info : ZipInfo)
    (d : Dict) (p : List String) (h : blockedBy d p) :
    blockedBy (loadEntry ov ap pm inc info d) p := by
  obtain ⟨q, r, hp, a, nm, s, hq⟩ := h
  rcases loadEntry_file_any ov ap pm inc info d q a nm s hq with
    ⟨a', n', s', hres⟩ | ⟨q', r', hqr, _, a', n', s', hres⟩
  · exact ⟨q, r, hp, a', n', s', hres⟩
  · exact ⟨q', r' ++ r, by rw [hp, hqr, List.append_assoc], a', n', s', hres⟩

theorem loadEntriesGo_blocked (ov : Bool) (ap : String)
    (pm : String → List String × Option String) (inc : Bool)
    (il : List ZipInfo) (d : Dict) (p : List String) (h : blockedBy d p) :
    blockedBy (loadEntriesGo ov ap pm inc il d) p := by
  induction il generalizing d with
  | nil => simpa [loadEntriesGo] using h
  | cons info rest ih =>
      simp only [loadEntriesGo]
      exact ih _ (loadEntry_blocked ov ap pm inc info d p h)

theorem blockedBy_elim (d : Dict) (p : List String) (h : blockedBy d p) :
    (∃ a nm s, resolve_spec (Node.dir d) p = some (Node.file a nm s)) ∨
    resolve_spec (Node.dir d) p = none := by
  obtain ⟨q, r, hp, a, nm, s, hq⟩ := h
  cases r with
  | nil =>
      left
      exact ⟨a, nm, s, by rw [hp, List.append_nil]; exact hq⟩
  | cons x r' =>
      right
      rw [hp, resolve_spec_append, hq]
      simp [resolve_spec]

theorem load_infolist_overwrite (m : Mapper) (ap : String)
    (il : List ZipInfo) : (load_infolist m ap il).overwrite = m.overwrite :=
  rfl

theorem loadSeq_file_preserved (loads : List (String × List ZipInfo))
    (m : Mapper) (hov : m.overwrite = false) (p : List String)
    (a nm : String) (s : Nat)
    (h : resolve_spec (Node.dir m.mapping) p = some (Node.file a nm s)) :
    resolve_spec (Node.dir (loadSeq loads m).mapping) p
      = some (Node.file a nm s) := by
  induction loads generalizing m with
  | nil => simpa [loadSeq] using h
  | cons l rest ih =>
      simp only [loadSeq]
      refine ih (load_infolist m l.1 l.2) hov ?_
      show resolve_spec
        (Node.dir (loadEntriesGo m.overwrite l.1 m.pathmaker m.include_arcname
          l.2 m.mapping)) p = some (Node.file a nm s)
      rw [hov]
      exact loadEntriesGo_file_preserved l.1 m.pathmaker m.include_arcname
        l.2 m.mapping p a nm s h

/-! ### Traverse and readdir lemmas -/

theorem foldl_traverseStep_none (frags : List String) :
    frags.foldl traverseStep none = none := by
  induction frags with
  | nil => rfl
  | cons f r ih => simpa [traverseStep] using ih

theorem foldl_traverseStep (frags : List String) (n : Node) :
    frags.foldl traverseStep (some n) = resolve_spec n frags := by
  induction frags generalizing n with
  | nil => simp [resolve_spec]
  | cons f r ih =>
      cases n with
      | file a nm s =>
          simp [traverseStep, resolve_spec, foldl_traverseStep_none]
      | dir d =>
          cases hl : lookupD d f with
          | none =>
              simp [traverseStep, resolve_spec, hl, foldl_traverseStep_none]
          | some child => simp [traverseStep, resolve_spec, hl, ih]

theorem traverse_eq_resolve (m : Mapper) (path : String) :
    traverse m path = resolve_spec (Node.dir m.mapping) (pathFrags path) :=
  foldl_traverseStep (pathFrags path) (Node.dir m.mapping)

/-! ### Record-dict lemmas -/

theorem lookupRec_setRec_self (l : RecDict) (k : String) (v : List String) :
    lookupRec (setRec l k v) k = some v := by
  induction l with
  | nil => simp [setRec, lookupRec]
  | cons kv rest ih =>
      obtain ⟨k', w⟩ := kv
      by_cases h : k' = k
      · simp [setRec, h, lookupRec]
      · simp [setRec, h, lookupRec, ih]

theorem lookupRec_setRec_ne (l : RecDict) (k k' : String) (v : List String)
    (h : k' ≠ k) : lookupRec (setRec l k v) k' = lookupRec l k' := by
  induction l with
  | nil => simp [setRec, lookupRec, Ne.symm h]
  | cons kv rest ih =>
      obtain ⟨k₀, w⟩ := kv
      by_cases h0 : k₀ = k
      · subst h0
        simp [setRec, lookupRec, Ne.symm h]
      · simp only [setRec, if_neg h0, lookupRec]
        by_cases h1 : k₀ = k'
        · simp [h1]
        · simp [h1, ih]

theorem lookupRec_appendRec_self (l : RecDict) (k v : String) :
    lookupRec (appendRec l k v) k = some ((lookupRec l k).getD [] ++ [v]) := by
  unfold appendRec
  cases h : lookupRec l k with
  | none => simp [lookupRec_setRec_self]
  | some vs => simp [lookupRec_setRec_self]

theorem lookupRec_appendRec_ne (l : RecDict) (k k' v : String) (h : k' ≠ k) :
    lookupRec (appendRec l k v) k' = lookupRec l k' := by
  unfold appendRec
  cases hl : lookupRec l k with
  | none => exact lookupRec_setRec_ne l k k' [v] h
  | some vs => exact lookupRec_setRec_ne l k k' (vs ++ [v]) h

theorem lookupRec_eraseRec (l : RecDict) (k : String) :
    lookupRec (eraseRec l k) k = none := by
  induction l with
  | nil => rfl
  | cons kv rest ih =>
      obtain ⟨k₀, v⟩ := kv
      by_cases h : k₀ = k
      · simpa [eraseRec, List.filter_cons, h] using ih
      · simpa [eraseRec, List.filter_cons, h, lookupRec] using ih

/-! ### Recording-load lemmas -/

theorem loadRecStep_include_arcname (m : Mapper) (id : String) (info : ZipInfo) :
    (loadRecStep m id info).include_arcname = m.include_arcname := rfl

theorem loadRecStep_contributed (m : Mapper) (id : String) (info : ZipInfo) :
    contributedNames (loadRecStep m id info) id
      = contributedNames m id ++ [effectiveName m.include_arcname id info] := by
  simp [loadRecStep, contributedNames, lookupRec_appendRec_self]

theorem loadRecStep_ledger (m : Mapper) (id : String) (info : ZipInfo)
    (name : String) :
    ledgerSeq (loadRecStep m id info) name
      = if effectiveName m.include_arcname id info = name
        then ledgerSeq m name ++ [id] else ledgerSeq m name := by
  by_cases h : effectiveName m.include_arcname id info = name
  · simp [loadRecStep, ledgerSeq, h, lookupRec_appendRec_self]
  · simp [loadRecStep, ledgerSeq, h, lookupRec_appendRec_ne _ _ _ _ (Ne.symm h)]

theorem loadRecGo_contributed (id : String) (il : List ZipInfo) (m : Mapper) :
    contributedNames (loadRecGo id il m) id
      = contributedNames m id ++ il.map (effectiveName m.include_arcname id) := by
  induction il generalizing m with
  | nil => simp [loadRecGo]
  | cons info rest ih =>
      simp only [loadRecGo, List.map_cons]
      rw [ih (loadRecStep m id info), loadRecStep_contributed,
        loadRecStep_include_arcname, List.append_assoc]
      rfl

theorem loadRecGo_ledger (id : String) (il : List ZipInfo) (m : Mapper)
    (name : String) :
    ledgerSeq (loadRecGo id il m) name
      = ledgerSeq m name ++ List.replicate
          (il.countP (fun i => effectiveName m.include_arcname id i == name))
          id := by
  induction il generalizing m with
  | nil => simp [loadRecGo]
  | cons info rest ih =>
      simp only [loadRecGo, List.countP_cons]
      rw [ih (loadRecStep m id info), loadRecStep_ledger,
        loadRecStep_include_arcname]
      by_cases h : effectiveName m.include_arcname id info = name
      · simp [h, List.replicate_succ, List.append_assoc]
      · simp [h]

/-! ### Unload lemmas -/

theorem unloadNameStep_archive_ifilenames (id : String) (m : Mapper)
    (name : String) :
    (unloadNameStep id m name).archive_ifilenames = m.archive_ifilenames := rfl

theorem unloadGo_archive_ifilenames (id : String) (names : List String)
    (m : Mapper) :
    (unloadGo id names m).archive_ifilenames = m.archive_ifilenames := by
  induction names generalizing m with
  | nil => rfl
  | cons name rest ih =>
      simp only [unloadGo]
      rw [ih, unloadNameStep_archive_ifilenames]

/-! ### Claim theorems -/

/-- C1: for every sequence of `load` calls with `overwrite=false`, once a
file leaf exists at an effective path, no later load's entry replaces it:
step 6 skips the write and the occupant stays bound to the leaf.  (Proved
for arbitrary load sequences, hence in particular for sequences with
distinct archive identifiers.) -/
theorem claim_C1_first_occupant_retained (m : Mapper)
    (hov : m.overwrite = false) (loads : List (String × List ZipInfo))
    (p : List String) (a nm : String) (s : Nat)
    (h : resolve_spec (Node.dir m.mapping) p = some (Node.file a nm s)) :
    resolve_spec (Node.dir (loadSeq loads m).mapping) p
      = some (Node.file a nm s) :=
  loadSeq_file_preserved loads m hov p a nm s h

/-- Witness for C1 at the pre-seeded mapper: loading `demo2.zip` (all of
whose entries claim `demo/...`) leaves the occupant file leaf `demo`
untouched. -/
theorem claim_C1_witness :
    mapperDemoSeed.overwrite = false ∧
    resolve_spec (Node.dir mapperDemoSeed.mapping) ["demo"]
      = some (Node.file "somezip.zip" "notadir" 0) ∧
    resolve_spec
      (Node.dir (loadSeq [("/tmp/demo2.zip", demo2Infos)] mapperDemoSeed).mapping)
      ["demo"] = some (Node.file "somezip.zip" "notadir" 0) :=
  ⟨rfl, rfl, claim_C1_first_occupant_retained mapperDemoSeed rfl
    [("/tmp/demo2.zip", demo2Infos)] ["demo"] "somezip.zip" "notadir" 0 rfl⟩

/-- C2: every archive-open failure (invalid format, missing file, any
other exception) is caught by `load_archive`, which returns `False` with
the mapper state unchanged; a successful open loads the infolist and
returns `True`. -/
theorem claim_C2_load_archive_failure (m : Mapper) (ap : String) :
    (∀ il, load_archive m ap (ZipOpenResult.opened il)
        = (true, load_infolist m ap il)) ∧
    load_archive m ap ZipOpenResult.badZipFile = (false, m) ∧
    load_archive m ap ZipOpenResult.fileNotFoundError = (false, m) ∧
    load_archive m ap ZipOpenResult.otherException = (false, m) :=
  ⟨fun _ => rfl, rfl, rfl, rfl⟩

/-- C3: an entry whose directory fragments collide with an existing file
node is rejected without mutating the tree (the `ValueError` from `mkdir`
is caught and the loop continues); concretely, loading `demo2.zip` over a
tree holding the file leaf `demo` rejects every entry and leaves exactly
the original leaf. -/
theorem claim_C3_conflicting_entry_rejected :
    (∀ (ov : Bool) (ap : String)
        (pm : String → List String × Option String) (inc : Bool)
        (info : ZipInfo) (d : Dict),
      hasFileConflict d (pm (effectiveName inc ap info)).1 = true →
        loadEntry ov ap pm inc info d = d) ∧
    (load_infolist mapperDemoSeed "/tmp/demo2.zip" demo2Infos).mapping
      = [("demo", Node.file "somezip.zip" "notadir" 0)] := by
  constructor
  · intro ov ap pm inc info d hconf
    obtain ⟨h1, e, h2⟩ := conflict_mkdirGo (pm (effectiveName inc ap info)).1
      (pm (effectiveName inc ap info)).1 0 d hconf
    have hmk : mkdir d (pm (effectiveName inc ap info)).1 = (d, some e) := by
      have hx : mkdir d (pm (effectiveName inc ap info)).1
          = ((mkdir d (pm (effectiveName inc ap info)).1).1,
             (mkdir d (pm (effectiveName inc ap info)).1).2) := rfl
      rw [hx]
      rw [show (mkdir d (pm (effectiveName inc ap info)).1).1 = d from h1,
        show (mkdir d (pm (effectiveName inc ap info)).1).2 = some e from h2]
    simp [loadEntry, hmk]
  · rfl

/-- Witness for C3: the entry `demo/file1` against the pre-seeded tree
conflicts on fragment `demo` and is processed without any tree change. -/
theorem claim_C3_witness :
    hasFileConflict [("demo", Node.file "somezip.zip" "notadir" 0)]
      (default_pathmaker
        (effectiveName false "/tmp/demo2.zip" ⟨"demo/file1", 33⟩)).1 = true ∧
    loadEntry false "/tmp/demo2.zip" default_pathmaker false
      ⟨"demo/file1", 33⟩ [("demo", Node.file "somezip.zip" "notadir" 0)]
      = [("demo", Node.file "somezip.zip" "notadir" 0)] :=
  ⟨rfl, claim_C3_conflicting_entry_rejected.1 false "/tmp/demo2.zip"
    default_pathmaker false ⟨"demo/file1", 33⟩
    [("demo", Node.file "somezip.zip" "notadir" 0)] rfl⟩

/-- C4 counterexample: with `overwrite=true`, loading an entry whose leaf
name collides with an existing directory rebinds that name from a
Directory node to a File leaf — an existing node does change kind. -/
theorem claim_C4_counterexample :
    cexMapper.overwrite = true ∧
    resolve_spec (Node.dir cexMapper.mapping) ["a"]
      = some (Node.dir [("b", Node.file "old.zip" "a/b" 1)]) ∧
    resolve_spec
      (Node.dir (load_infolist cexMapper "/tmp/z.zip" [⟨"a", 5⟩]).mapping)
      ["a"] = some (Node.file "/tmp/z.zip" "a" 5) :=
  ⟨rfl, rfl, rfl⟩

/-- C4 (amended): with `overwrite=false` no existing node changes kind —
a file leaf keeps its exact binding and a directory stays a directory;
with `overwrite=true` a file leaf may replace a directory node, but even
then a file-bound path is never rebound to a directory (afterwards it
holds a file or nothing). -/
theorem claim_C4_amended_no_kind_change :
    (∀ (m : Mapper) (ap : String) (il : List ZipInfo) (p : List String)
        (a nm : String) (s : Nat), m.overwrite = false →
      resolve_spec (Node.dir m.mapping) p = some (Node.file a nm s) →
      resolve_spec (Node.dir (load_infolist m ap il).mapping) p
        = some (Node.file a nm s)) ∧
    (∀ (m : Mapper) (ap : String) (il : List ZipInfo) (p : List String)
        (e : Dict), m.overwrite = false →
      resolve_spec (Node.dir m.mapping) p = some (Node.dir e) →
      ∃ e', resolve_spec (Node.dir (load_infolist m ap il).mapping) p
        = some (Node.dir e')) ∧
    (∀ (m : Mapper) (ap : String) (il : List ZipInfo) (p : List String)
        (a nm : String) (s : Nat),
      resolve_spec (Node.dir m.mapping) p = some (Node.file a nm s) →
      (∃ a' n' s', resolve_spec (Node.dir (load_infolist m ap il).mapping) p
          = some (Node.file a' n' s')) ∨
      resolve_spec (Node.dir (load_infolist m ap il).mapping) p = none) := by
  refine ⟨?_, ?_, ?_⟩
  · intro m ap il p a nm s hov h
    show resolve_spec (Node.dir (loadEntriesGo m.overwrite ap m.pathmaker
      m.include_arcname il m.mapping)) p = some (Node.file a nm s)
    rw [hov]
    exact loadEntriesGo_file_preserved ap m.pathmaker m.include_arcname
      il m.mapping p a nm s h
  · intro m ap il p e hov h
    show ∃ e', resolve_spec (Node.dir (loadEntriesGo m.overwrite ap
      m.pathmaker m.include_arcname il m.mapping)) p = some (Node.dir e')
    rw [hov]
    exact loadEntriesGo_dir_preserved ap m.pathmaker m.include_arcname
      il m.mapping p e h
  · intro m ap il p a nm s h
    exact blockedBy_elim _ p
      (loadEntriesGo_blocked m.overwrite ap m.pathmaker m.include_arcname
        il m.mapping p ⟨p, [], (List.append_nil p).symm, a, nm, s, h⟩)

/-- Witness for the amended C4 at concrete states: the `overwrite=false`
kind preservation at the pre-seeded mapper, and the never-a-directory
conclusion at the counterexample mapper. -/
theorem claim_C4_amended_witness :
    (mapperDemoSeed.overwrite = false ∧
      resolve_spec
        (Node.dir (load_infolist mapperDemoSeed "/tmp/w.zip"
          [⟨"other", 7⟩]).mapping) ["demo"]
        = some (Node.file "somezip.zip" "notadir" 0)) ∧
    ((∃ a' n' s', resolve_spec
        (Node.dir (load_infolist cexMapper "/tmp/z.zip" [⟨"a", 5⟩]).mapping)
        ["a", "b"] = some (Node.file a' n' s')) ∨
      resolve_spec
        (Node.dir (load_infolist cexMapper "/tmp/z.zip" [⟨"a", 5⟩]).mapping)
        ["a", "b"] = none) :=
  ⟨⟨rfl, claim_C4_amended_no_kind_change.1 mapperDemoSeed "/tmp/w.zip"
      [⟨"other", 7⟩] ["demo"] "somezip.zip" "notadir" 0 rfl rfl⟩,
    claim_C4_amended_no_kind_change.2.2 cexMapper "/tmp/z.zip" [⟨"a", 5⟩]
      ["a", "b"] "old.zip" "a/b" 1 rfl⟩

/-- C5: the recording `load` appends every entry's effective name to the
archive's contributed-names list and the archive identifier to the
occupancy ledger of that name, unconditionally — for every initial state,
including states where the entry is then rejected by a path conflict or
skipped by the overwrite policy. -/
theorem claim_C5_records_unconditional (m : Mapper) (id : String)
    (il : List ZipInfo) :
    contributedNames (load_infolist_rec m id il) id
      = contributedNames m id ++ il.map (effectiveName m.include_arcname id) ∧
    ∀ name, ledgerSeq (load_infolist_rec m id il) name
      = ledgerSeq m name ++ List.replicate
          (il.countP (fun i => effectiveName m.include_arcname id i == name))
          id :=
  ⟨loadRecGo_contributed id il _, fun name => loadRecGo_ledger id il _ name⟩

/-- C6: unloading an archive identifier absent from the registry fails
with the "not loaded" condition (and, the call being rejected up front,
no state is produced); consequently a second unload of the same
identifier fails, since a successful unload erases the registry entry. -/
theorem claim_C6_unload_not_loaded :
    (∀ (m : Mapper) (id : String),
      lookupRec m.archive_ifilenames id = none →
        unload_infolist m id = Except.error ("not loaded: " ++ id)) ∧
    (∀ (m m' : Mapper) (id : String),
      unload_infolist m id = Except.ok m' →
        unload_infolist m' id = Except.error ("not loaded: " ++ id)) := by
  constructor
  · intro m id h
    simp [unload_infolist, h]
  · intro m m' id h
    cases hl : lookupRec m.archive_ifilenames id with
    | none => simp [unload_infolist, hl] at h
    | some names =>
        simp only [unload_infolist, hl, Except.ok.injEq] at h
        have hreg : lookupRec m'.archive_ifilenames id = none := by
          rw [← h]
          exact lookupRec_eraseRec _ id
        simp [unload_infolist, hreg]

/-- Witness for C6: unloading from a mapper with nothing loaded fails
with the "not loaded" condition. -/
theorem claim_C6_witness :
    lookupRec emptyMapper.archive_ifilenames "/tmp/demo1.zip" = none ∧
    unload_infolist emptyMapper "/tmp/demo1.zip"
      = Except.error ("not loaded: " ++ "/tmp/demo1.zip") :=
  ⟨rfl, claim_C6_unload_not_loaded.1 emptyMapper "/tmp/demo1.zip" rfl⟩

/-- C7: `traverse` resolves a '/'-separated path by following each
fragment through nested directory mappings, returning the node there or
`none` when a fragment is missing or an intermediate node is not a
directory (the behaviour of `resolve_spec`); the empty path returns the
root mapping itself. -/
theorem claim_C7_traverse_resolves (m : Mapper) :
    traverse m "" = some (Node.dir m.mapping) ∧
    ∀ path, traverse m path
      = resolve_spec (Node.dir m.mapping) (pathFrags path) :=
  ⟨by simp [traverse, pathFrags], fun path => traverse_eq_resolve m path⟩

/-- C8: `readdir` returns the child names when the path resolves to a
directory, and the empty listing — without throwing — when it resolves to
a file or to nothing. -/
theorem claim_C8_readdir (m : Mapper) (path : String) :
    (∀ d, traverse m path = some (Node.dir d) →
      readdir m path = d.map Prod.fst) ∧
    (traverse m path = none → readdir m path = []) ∧
    (∀ a nm s, traverse m path = some (Node.file a nm s) →
      readdir m path = []) := by
  refine ⟨fun d h => ?_, fun h => ?_, fun a nm s h => ?_⟩
  · simp [readdir, h]
  · simp [readdir, h]
  · simp [readdir, h]

/-- Witness for C8: at the pre-seeded mapper the root directory lists its
single child, and the file leaf `demo` yields the empty listing. -/
theorem claim_C8_witness :
    (traverse mapperDemoSeed "" = some (Node.dir mapperDemoSeed.mapping) ∧
      readdir mapperDemoSeed "" = ["demo"]) ∧
    (traverse mapperDemoSeed "demo"
        = some (Node.file "somezip.zip" "notadir" 0) ∧
      readdir mapperDemoSeed "demo" = []) :=
  ⟨⟨rfl, (claim_C8_readdir mapperDemoSeed "").1 mapperDemoSeed.mapping rfl⟩,
    ⟨rfl, (claim_C8_readdir mapperDemoSeed "demo").2.2 "somezip.zip"
      "notadir" 0 rfl⟩⟩

/-- C9: the read-side operations are pure lookups: as state-passing
methods they return the state unchanged, and their results depend on the
mapping alone — two mappers with the same mapping (whatever their
configuration) observe the same answers. -/
theorem claim_C9_read_ops_pure :
    (∀ (m : Mapper) (path : String),
      (traverseS m path).2 = m ∧ (readdirS m path).2 = m) ∧
    (∀ (m₁ m₂ : Mapper) (path : String), m₁.mapping = m₂.mapping →
      traverse m₁ path = traverse m₂ path ∧
      readdir m₁ path = readdir m₂ path) := by
  refine ⟨fun m path => ⟨rfl, rfl⟩, fun m₁ m₂ path h => ⟨?_, ?_⟩⟩
  · simp [traverse, h]
  · simp [readdir, traverse, h]

/-- Witness for C9: the two pre-seeded mappers differ only in their
`overwrite` flag and observe identical reads; the state-passing wrappers
return the given state. -/
theorem claim_C9_witness :
    mapperDemoSeed.mapping = mapperDemoSeedOv.mapping ∧
    traverse mapperDemoSeed "demo" = traverse mapperDemoSeedOv "demo" ∧
    (traverseS mapperDemoSeed "demo").2 = mapperDemoSeed :=
  ⟨rfl,
    (claim_C9_read_ops_pure.2 mapperDemoSeed mapperDemoSeedOv "demo" rfl).1,
    (claim_C9_read_ops_pure.1 mapperDemoSeed "demo").1⟩

/-- C10: when `mkdir` raises `ValueError` because a fragment exists as a
file node, the mapping is exactly as it was before the call — any newly
created directory would be empty and conflict-free, so a conflict is
always detected before the first creation. -/
theorem claim_C10_mkdir_error_no_mutation (d : Dict) (fs : List String)
    (h : (mkdir d fs).2.isSome = true) : (mkdir d fs).1 = d := by
  cases he : (mkdir d fs).2 with
  | none => rw [he] at h; simp at h
  | some e => exact mkdir_err_fst d fs e he

/-- Witness for C10 at the blocked-mkdir test input: creating
`notdir/2/3` over a file leaf `notdir` errors and leaves the mapping
untouched. -/
theorem claim_C10_witness :
    (mkdir [("notdir", Node.file "somezip.zip" "afile" 1)]
      ["notdir", "2", "3"]).2.isSome = true ∧
    (mkdir [("notdir", Node.file "somezip.zip" "afile" 1)]
      ["notdir", "2", "3"]).1
      = [("notdir", Node.file "somezip.zip" "afile" 1)] :=
  ⟨rfl, claim_C10_mkdir_error_no_mutation
    [("notdir", Node.file "somezip.zip" "afile" 1)] ["notdir", "2", "3"] rfl⟩

end ExplosiveFuse
